import Mathlib

/-!
Verification of the Quaoar ring-occultation simulator
(`Photometry/QuaoarRingOccs_v01-AAS-noplot.py`).

The script has two core routines:

* `occ_lc(ap)` — the Trester diffraction propagator: multiplies the complex
  aperture by the quadratic phase factor `exp(iπ/npts·(y²+x²))` over centered
  integer grids, takes an unnormalized forward 2-D DFT, forms the squared
  magnitude `real(E·conj E)`, and cyclically rolls the result by `n2 = npts/2`
  along both axes.
* `RingSeg_ap(lam, D, npts, wid, t_r)` — builds the ring aperture: computes
  `gridSz = sqrt(lam_km·D/npts)` and `FOV = sqrt(lam_km·D·npts)`, lays out
  column offsets `xv[c] = (c - npts/2)·gridSz`, and sets cells with
  `|offset| ≤ wid/2` to `t_r(offset)`, all others to `1`.

Arrays are embedded as total functions on ℕ indices; all claims quantify only
over indices below `npts`, the array extent. Machine floats are embedded as
real numbers (exact arithmetic).
-/

open Finset Complex

noncomputable section

/-- `n2 = int(npts/2)` from `occ_lc` (floor division, as Python `int`). -/
def occ_n2 (npts : ℕ) : ℕ := npts / 2

/-- `eTerm = np.exp(((np.pi*1j)/npts)*(y**2 + x**2))` where
`(y,x) = np.indices((npts,npts)) - n2`: the quadratic phase factor of the
modified aperture, at row `r`, column `c`. -/
def eTerm (npts r c : ℕ) : ℂ :=
  Complex.exp ((Real.pi : ℂ) * Complex.I / npts *
    (((r : ℂ) - (occ_n2 npts : ℕ)) ^ 2 + ((c : ℂ) - (occ_n2 npts : ℕ)) ^ 2))

/-- `M = ap * eTerm`: Trester's modified aperture. -/
def occ_M (npts : ℕ) (ap : ℕ → ℕ → ℂ) (r c : ℕ) : ℂ :=
  ap r c * eTerm npts r c

/-- `scipy.fft.fft2`: the unnormalized forward 2-D discrete Fourier transform
of a square `npts × npts` array, frequency sample `(u, v)`. -/
def fft2 (npts : ℕ) (M : ℕ → ℕ → ℂ) (u v : ℕ) : ℂ :=
  ∑ r ∈ Finset.range npts, ∑ c ∈ Finset.range npts,
    M r c * Complex.exp (-2 * (Real.pi : ℂ) * Complex.I *
      ((r : ℂ) * (u : ℂ) + (c : ℂ) * (v : ℂ)) / npts)

/-- `E_obs = fft2(M)`: the observer-plane E-field before recentring. -/
def occ_E (npts : ℕ) (ap : ℕ → ℕ → ℂ) (u v : ℕ) : ℂ :=
  fft2 npts (occ_M npts ap) u v

/-- `E_obs * np.conj(E_obs)`, before taking the real part. -/
def occ_pObsC (npts : ℕ) (ap : ℕ → ℕ → ℂ) (u v : ℕ) : ℂ :=
  occ_E npts ap u v * (starRingEnd ℂ) (occ_E npts ap u v)

/-- `pObs = np.real(E_obs * np.conj(E_obs))`. -/
def occ_pObs (npts : ℕ) (ap : ℕ → ℕ → ℂ) (u v : ℕ) : ℝ :=
  (occ_pObsC npts ap u v).re

/-- Index map of `np.roll(·, n2, axis)` on an array of extent `npts`:
entry `i` of the rolled array is entry `(i - n2) mod npts` of the original,
written with natural subtraction as `(i + (npts - n2)) % npts`. -/
def rollIdx (npts n2 i : ℕ) : ℕ := (i + (npts - n2)) % npts

/-- `occ_lc(ap)`: the full propagator, returning the recentred intensity
field `np.roll(np.roll(pObs, n2, 0), n2, 1)` at row `i`, column `j`. -/
def occ_lc (npts : ℕ) (ap : ℕ → ℕ → ℂ) (i j : ℕ) : ℝ :=
  occ_pObs npts ap (rollIdx npts (occ_n2 npts) i) (rollIdx npts (occ_n2 npts) j)

/-- `lam_km = lam * 1e-9` — microns to kilometers. -/
def lam_km (lam : ℝ) : ℝ := lam * 1e-9

/-- `gridSz = np.sqrt(lam_km * D/npts)` from `RingSeg_ap`. -/
def gridSz (lam D : ℝ) (npts : ℕ) : ℝ := Real.sqrt (lam_km lam * D / npts)

/-- `FOV = np.sqrt(lam_km * D * npts)` from `RingSeg_ap`. -/
def FOV (lam D : ℝ) (npts : ℕ) : ℝ := Real.sqrt (lam_km lam * D * npts)

/-- `xv = (np.arange(npts) - npts2) * gridSz` with `npts2 = int(0.5*npts)`:
the column offset (km) of column `c`, centered on the ring. -/
def xv (lam D : ℝ) (npts : ℕ) (c : ℕ) : ℝ :=
  ((c : ℝ) - ((npts / 2 : ℕ) : ℝ)) * gridSz lam D npts

/-- `grid = np.outer(yv, xv)` with `yv = np.ones(npts)`: the 2-D array of
column offsets at row `r`, column `c`. -/
def ringGrid (lam D : ℝ) (npts : ℕ) (r c : ℕ) : ℝ :=
  1 * xv lam D npts c

/-- `inAp = np.abs(grid) <= wid2` with `wid2 = 0.5 * wid`: the in-ring mask. -/
def inAp (lam D : ℝ) (npts : ℕ) (wid : ℝ) (r c : ℕ) : Prop :=
  |ringGrid lam D npts r c| ≤ 0.5 * wid

instance (lam D : ℝ) (npts : ℕ) (wid : ℝ) (r c : ℕ) :
    Decidable (inAp lam D npts wid r c) := by
  unfold inAp; infer_instance

/-- `RingSeg_ap`: the aperture starts as `np.ones((npts,npts))` and the
masked cells are replaced by `t_r` evaluated at their grid offset. -/
def RingSeg_ap (lam D : ℝ) (npts : ℕ) (wid : ℝ) (t_r : ℝ → ℝ) (r c : ℕ) : ℝ :=
  if inAp lam D npts wid r c then t_r (ringGrid lam D npts r c) else 1

/-- `RingSeg_ap` with a fallible transmission function: `t_r` returns `none`
outside its domain (modelling `scipy.interpolate.interp1d` raising a
`ValueError` when queried outside the table's range). The builder evaluates
`t_r` only on masked cells, exactly as `ap[inAp] = t_r(grid[inAp])` does. -/
def RingSeg_apOpt (lam D : ℝ) (npts : ℕ) (wid : ℝ) (t_r : ℝ → Option ℝ)
    (r c : ℕ) : Option ℝ :=
  if inAp lam D npts wid r c then t_r (ringGrid lam D npts r c) else some 1

/-- `np.median` on a 1-D array: sort, then take the middle element (odd
length) or the mean of the two middle elements (even length). -/
def npMedian (l : List ℝ) : ℝ :=
  if l.length % 2 = 1 then
    (l.mergeSort (fun a b => decide (a ≤ b))).getD (l.length / 2) 0
  else
    ((l.mergeSort (fun a b => decide (a ≤ b))).getD (l.length / 2 - 1) 0 +
      (l.mergeSort (fun a b => decide (a ≤ b))).getD (l.length / 2) 0) / 2

/-- The leading out-of-event window `row[0:100]` of a lightcurve row,
as in `opF1[2048, 0:100]`. -/
def baselineWindow (row : ℕ → ℝ) : List ℝ := (List.range 100).map row

/-- `bg = np.median(opF[2048, 0:100])`: the baseline of a lightcurve row. -/
def baseline (row : ℕ → ℝ) : ℝ := npMedian (baselineWindow row)

/-- `opF = opF/bg`: baseline normalization of a lightcurve row. -/
def normalizeRow (row : ℕ → ℝ) : ℕ → ℝ := fun i => row i / baseline row

/-- C2: every entry of the aperture returned by `RingSeg_ap` equals the
transmission function evaluated at the column offset
`x_c = (c - npts/2)·gridSizeKm` when `|x_c| ≤ wid/2`, and `1.0` otherwise,
for every row `r` and column `c`. -/
theorem ringSeg_ap_entry (lam D : ℝ) (npts : ℕ) (wid : ℝ) (t_r : ℝ → ℝ)
    (r c : ℕ) :
    RingSeg_ap lam D npts wid t_r r c =
      if |((c : ℝ) - ((npts / 2 : ℕ) : ℝ)) * gridSz lam D npts| ≤ wid / 2
      then t_r (((c : ℝ) - ((npts / 2 : ℕ) : ℝ)) * gridSz lam D npts)
      else 1 := by
  have h : (0.5 : ℝ) * wid = wid / 2 := by ring
  unfold RingSeg_ap inAp ringGrid xv
  simp only [one_mul, h]

/-- C8: every row of the aperture returned by `RingSeg_ap` is identical —
each cell's transmission depends only on its column, never on its row. -/
theorem ringSeg_ap_rows_identical (lam D : ℝ) (npts : ℕ) (wid : ℝ)
    (t_r : ℝ → ℝ) (r1 r2 c : ℕ) :
    RingSeg_ap lam D npts wid t_r r1 c = RingSeg_ap lam D npts wid t_r r2 c :=
  rfl

/-- C10: the aperture builder queries the transmission function only at
offsets inside the closed interval `[-wid/2, wid/2]`; with a transmission
function defined exactly on that interval (`none` = domain error outside it),
every cell of the built aperture is defined — the error branch is
unreachable. -/
theorem ringSeg_ap_no_domain_error (lam D : ℝ) (npts : ℕ) (wid : ℝ)
    (t_r : ℝ → Option ℝ)
    (hdom : ∀ x : ℝ, |x| ≤ wid / 2 → (t_r x).isSome)
    (r c : ℕ) :
    (RingSeg_apOpt lam D npts wid t_r r c).isSome := by
  unfold RingSeg_apOpt
  split
  · rename_i h
    exact hdom _ (by unfold inAp at h; linarith [abs_nonneg (ringGrid lam D npts r c)])
  · rfl

/-- Witness for C10 at a concrete transmission table defined on
`[-23, 23]`, ring width `46`. -/
theorem ringSeg_ap_no_domain_error_witness :
    (∀ x : ℝ, |x| ≤ (46 : ℝ) / 2 →
      ((fun x : ℝ => if |x| ≤ (23 : ℝ) then some (1 : ℝ) else none) x).isSome) ∧
    (RingSeg_apOpt 1 1 4 46
      (fun x : ℝ => if |x| ≤ (23 : ℝ) then some (1 : ℝ) else none) 0 0).isSome := by
  have h : ∀ x : ℝ, |x| ≤ (46 : ℝ) / 2 →
      ((fun x : ℝ => if |x| ≤ (23 : ℝ) then some (1 : ℝ) else none) x).isSome := by
    intro x hx
    have : |x| ≤ (23 : ℝ) := by linarith
    simp [this]
  exact ⟨h, ringSeg_ap_no_domain_error 1 1 4 46 _ h 0 0⟩

/-- C3: `RingSeg_ap` converts microns to km by `×1e-9` and returns
`gridSz = √(λ_km·D/npts)` and `FOV = √(λ_km·D·npts)`, which satisfy the
coupling invariant `FOV = gridSz · npts` exactly in real arithmetic. -/
theorem fov_gridSz_coupling (lam D : ℝ) (npts : ℕ)
    (hlam : 0 < lam) (hD : 0 < D) (hn : 0 < npts) :
    FOV lam D npts = gridSz lam D npts * npts ∧
    gridSz lam D npts = Real.sqrt (lam * 1e-9 * D / npts) ∧
    FOV lam D npts = Real.sqrt (lam * 1e-9 * D * npts) := by
  refine ⟨?_, rfl, rfl⟩
  have hnR : (0 : ℝ) < (npts : ℝ) := by exact_mod_cast hn
  have ha : (0 : ℝ) ≤ lam_km lam * D := by
    unfold lam_km; positivity
  have hdiv : (0 : ℝ) ≤ lam_km lam * D / npts := by positivity
  have key : lam_km lam * D * npts = (lam_km lam * D / npts) * (npts : ℝ) ^ 2 := by
    field_simp; ring
  unfold FOV gridSz
  rw [key, Real.sqrt_mul hdiv, Real.sqrt_sq hnR.le]

/-- Witness for C3 at `lam = 1`, `D = 1`, `npts = 2`. -/
theorem fov_gridSz_coupling_witness :
    (0 : ℝ) < 1 ∧ (0 : ℕ) < 2 ∧
    (FOV 1 1 2 = gridSz 1 1 2 * ((2 : ℕ) : ℝ) ∧
     gridSz 1 1 2 = Real.sqrt (1 * 1e-9 * 1 / ((2 : ℕ) : ℝ)) ∧
     FOV 1 1 2 = Real.sqrt (1 * 1e-9 * 1 * ((2 : ℕ) : ℝ))) :=
  ⟨by norm_num, by norm_num,
    fov_gridSz_coupling 1 1 2 (by norm_num) (by norm_num) (by norm_num)⟩

/-- C7: the intensity field returned by `occ_lc` is real (the imaginary part
of `E·conj E` vanishes identically), equals the squared magnitude of the
E-field with no further normalization factor, and every entry is
non-negative. -/
theorem occ_lc_real_nonneg (npts : ℕ) (ap : ℕ → ℕ → ℂ) (i j : ℕ) :
    (occ_pObsC npts ap i j).im = 0 ∧
    occ_lc npts ap i j =
      Complex.normSq (occ_E npts ap (rollIdx npts (occ_n2 npts) i)
        (rollIdx npts (occ_n2 npts) j)) ∧
    0 ≤ occ_lc npts ap i j := by
  refine ⟨?_, ?_, ?_⟩
  · unfold occ_pObsC
    rw [Complex.mul_conj]
    exact Complex.ofReal_im _
  · unfold occ_lc occ_pObs occ_pObsC
    rw [Complex.mul_conj]
    exact Complex.ofReal_re _
  · unfold occ_lc occ_pObs occ_pObsC
    rw [Complex.mul_conj, Complex.ofReal_re]
    exact Complex.normSq_nonneg _

/-- The natural-subtraction index of `np.roll` agrees with the integer
`(i - n2) mod npts` for `n2 ≤ npts`. -/
theorem rollIdx_eq_int_emod (npts n2 i : ℕ) (h2 : n2 ≤ npts) (h0 : 0 < npts) :
    (((i : ℤ) - (n2 : ℤ)) % (npts : ℤ)).toNat = rollIdx npts n2 i := by
  unfold rollIdx
  have h1 : ((i + (npts - n2) : ℕ) : ℤ) = (i : ℤ) - (n2 : ℤ) + (npts : ℤ) * 1 := by
    omega
  have h3 : ((i : ℤ) - (n2 : ℤ)) % (npts : ℤ)
      = ((i + (npts - n2) : ℕ) : ℤ) % (npts : ℤ) := by
    rw [h1, Int.add_mul_emod_self_left]
  rw [h3, ← Int.natCast_mod, Int.toNat_natCast]

/-- C1: for an even side length `npts = 2·n2`, `occ_lc` returns
`P[i][j] = |F[(i-n2) mod npts][(j-n2) mod npts]|²`, where `F` is the
unnormalized forward 2-D DFT of the modified aperture
`M[r][c] = ap[r][c]·exp(iπ/npts·((r-n2)² + (c-n2)²))`: the quadratic phase
is built over centered integer grids and the zero-frequency term is
cyclically shifted by `n2` along both axes. -/
theorem occ_lc_matches_shifted_dft (npts n2 : ℕ) (ap : ℕ → ℕ → ℂ) (i j : ℕ)
    (hn : npts = 2 * n2) (hi : i < npts) (hj : j < npts) :
    occ_lc npts ap i j =
      Complex.normSq (fft2 npts
        (fun r c => ap r c * Complex.exp ((Real.pi : ℂ) * Complex.I / npts *
          (((r : ℂ) - ((n2 : ℕ) : ℂ)) ^ 2 + ((c : ℂ) - ((n2 : ℕ) : ℂ)) ^ 2)))
        (((i : ℤ) - (n2 : ℤ)) % (npts : ℤ)).toNat
        (((j : ℤ) - (n2 : ℤ)) % (npts : ℤ)).toNat) := by
  have hn2 : occ_n2 npts = n2 := by unfold occ_n2; omega
  have hle : n2 ≤ npts := by omega
  have h0 : 0 < npts := by omega
  have e1 := rollIdx_eq_int_emod npts n2 i hle h0
  have e2 := rollIdx_eq_int_emod npts n2 j hle h0
  unfold occ_lc occ_pObs occ_pObsC occ_E occ_M eTerm
  rw [hn2, e1, e2, Complex.mul_conj, Complex.ofReal_re]

/-- Witness for C1 at `npts = 2`, `n2 = 1`, the all-ones `2×2` aperture. -/
theorem occ_lc_matches_shifted_dft_witness :
    (2 : ℕ) = 2 * 1 ∧ (0 : ℕ) < 2 ∧
    occ_lc 2 (fun _ _ => (1 : ℂ)) 0 0 =
      Complex.normSq (fft2 2
        (fun r c => (fun _ _ => (1 : ℂ)) r c *
          Complex.exp ((Real.pi : ℂ) * Complex.I / (2 : ℕ) *
          (((r : ℂ) - ((1 : ℕ) : ℂ)) ^ 2 + ((c : ℂ) - ((1 : ℕ) : ℂ)) ^ 2)))
        ((((0 : ℕ) : ℤ) - ((1 : ℕ) : ℤ)) % ((2 : ℕ) : ℤ)).toNat
        ((((0 : ℕ) : ℤ) - ((1 : ℕ) : ℤ)) % ((2 : ℕ) : ℤ)).toNat) :=
  ⟨rfl, by norm_num,
    occ_lc_matches_shifted_dft 2 1 (fun _ _ => 1) 0 0 rfl (by norm_num) (by norm_num)⟩

/-- C4 counterexample: `occ_lc` applied to a `1×1` aperture — side length 1,
which is odd — returns the well-defined intensity `1` instead of failing
with a shape error: the code performs no validation at its boundary. -/
theorem occ_lc_odd_side_no_error :
    occ_lc 1 (fun _ _ => (1 : ℂ)) 0 0 = 1 := by
  simp [occ_lc, occ_pObs, occ_pObsC, occ_E, occ_M, eTerm, fft2, occ_n2, rollIdx]

/-- C4 amended: `occ_lc` performs no shape validation; it reads `npts` from
the first dimension and, for an odd side length `2m+1`, silently proceeds
using the floored center `n2 = m`, rolling both axes by `m`. -/
theorem occ_lc_odd_silent (m : ℕ) (ap : ℕ → ℕ → ℂ) (i j : ℕ) :
    occ_lc (2 * m + 1) ap i j =
      occ_pObs (2 * m + 1) ap ((i + m + 1) % (2 * m + 1))
        ((j + m + 1) % (2 * m + 1)) := by
  unfold occ_lc rollIdx occ_n2
  congr 2 <;> omega

/-- C9 counterexample: at the scenario inputs (`λ = 0.5 µm`,
`D = 43·1.5e8 km`, `npts = 4096`) the grid size exceeds `0.02785 km`, so it
is not `0.0278 km` to the precision of the quoted figure (that would require
a value at most `0.02785`); the true value is `≈ 0.02806 km`. -/
theorem scenario_gridSz_not_0_0278 :
    (0.02785 : ℝ) < gridSz 0.5 (43 * 1.5e8) 4096 := by
  unfold gridSz lam_km
  rw [show (0.5 * 1e-9 * (43 * 1.5e8) / ((4096 : ℕ) : ℝ)) = 3.225 / 4096 by
    norm_num]
  rw [Real.lt_sqrt (by norm_num)]
  norm_num

/-- C9 amended: at the scenario inputs the field of view lies strictly
between `114.93` and `114.94` km (so "114 km across" is a truncation of
`≈ 114.9`), and the grid size lies strictly between `0.02805` and
`0.02806` km (`≈ 0.0281`, not `0.0278`). -/
theorem scenario_scales_bounds :
    (114.93 : ℝ) < FOV 0.5 (43 * 1.5e8) 4096 ∧
    FOV 0.5 (43 * 1.5e8) 4096 < 114.94 ∧
    (0.02805 : ℝ) < gridSz 0.5 (43 * 1.5e8) 4096 ∧
    gridSz 0.5 (43 * 1.5e8) 4096 < 0.02806 := by
  unfold FOV gridSz lam_km
  rw [show (0.5 * 1e-9 * (43 * 1.5e8) * ((4096 : ℕ) : ℝ)) = 13209.6 by norm_num,
    show (0.5 * 1e-9 * (43 * 1.5e8) / ((4096 : ℕ) : ℝ)) = 3.225 / 4096 by norm_num]
  refine ⟨?_, ?_, ?_, ?_⟩
  · rw [Real.lt_sqrt (by norm_num)]; norm_num
  · rw [Real.sqrt_lt' (by norm_num)]; norm_num
  · rw [Real.lt_sqrt (by norm_num)]; norm_num
  · rw [Real.sqrt_lt' (by norm_num)]; norm_num

/-- Sorting commutes with division by a positive constant. -/
theorem mergeSort_map_div (l : List ℝ) (m : ℝ) (hm : 0 < m) :
    (l.map (· / m)).mergeSort (fun a b => decide (a ≤ b))
      = (l.mergeSort (fun a b => decide (a ≤ b))).map (· / m) := by
  apply List.eq_of_perm_of_sorted (r := (· ≤ ·))
  · exact (List.mergeSort_perm _ _).trans
      (((List.mergeSort_perm l _).map (· / m)).symm)
  · exact List.sorted_mergeSort' _
  · exact List.Pairwise.map _ (fun a b h => by gcongr)
      (List.sorted_mergeSort' l)

/-- `np.median` commutes with division by a positive constant. -/
theorem npMedian_map_div (l : List ℝ) (m : ℝ) (hm : 0 < m) :
    npMedian (l.map (· / m)) = npMedian l / m := by
  unfold npMedian
  rw [mergeSort_map_div l m hm, List.length_map]
  conv_lhs => rw [show (0 : ℝ) = (0 : ℝ) / m from (zero_div m).symm]
  split
  · rw [List.getD_map]
  · rw [List.getD_map, List.getD_map]
    ring

/-- The `np.median` of a nonempty list of positive reals is positive. -/
theorem npMedian_pos (l : List ℝ) (hne : l ≠ []) (hpos : ∀ x ∈ l, 0 < x) :
    0 < npMedian l := by
  unfold npMedian
  have hperm := List.mergeSort_perm l (fun a b => decide (a ≤ b))
  have hlen : (l.mergeSort (fun a b => decide (a ≤ b))).length = l.length :=
    hperm.length_eq
  have hmem : ∀ x ∈ l.mergeSort (fun a b => decide (a ≤ b)), 0 < x :=
    fun x hx => hpos x (hperm.subset hx)
  have hlpos : 0 < l.length := List.length_pos.mpr hne
  split
  · rename_i hodd
    have hlt : l.length / 2 < (l.mergeSort (fun a b => decide (a ≤ b))).length := by
      omega
    rw [List.getD_eq_getElem _ _ hlt]
    exact hmem _ (List.getElem_mem _)
  · rename_i heven
    have h2 : 2 ≤ l.length := by omega
    have hlt1 : l.length / 2 - 1 <
        (l.mergeSort (fun a b => decide (a ≤ b))).length := by omega
    have hlt2 : l.length / 2 <
        (l.mergeSort (fun a b => decide (a ≤ b))).length := by omega
    rw [List.getD_eq_getElem _ _ hlt1, List.getD_eq_getElem _ _ hlt2]
    have p1 := hmem _ (List.getElem_mem hlt1)
    have p2 := hmem _ (List.getElem_mem hlt2)
    linarith

/-- C6: baseline normalization is idempotent — if every value in the leading
baseline window of a lightcurve row is positive, dividing the row by the
median of that window makes the recomputed median of the window exactly `1`
(exact arithmetic), so a second normalization pass changes nothing. -/
theorem baseline_normalization_idempotent (row : ℕ → ℝ)
    (hpos : ∀ i, i < 100 → 0 < row i) :
    baseline (normalizeRow row) = 1 := by
  have hbpos : 0 < baseline row := by
    apply npMedian_pos
    · simp [baselineWindow]
    · intro x hx
      simp only [baselineWindow, List.mem_map, List.mem_range] at hx
      obtain ⟨i, hi, rfl⟩ := hx
      exact hpos i hi
  have hw : baselineWindow (normalizeRow row)
      = (baselineWindow row).map (· / baseline row) := by
    simp only [baselineWindow, normalizeRow, List.map_map]
    rfl
  show npMedian (baselineWindow (normalizeRow row)) = 1
  rw [hw, npMedian_map_div _ _ hbpos]
  exact div_self hbpos.ne'

/-- Reflecting a column index about the center is an involution on
`[0, npts)` when written as `c ↦ (npts - c) % npts`. -/
theorem reflect_involution (npts a : ℕ) (ha : a < npts) :
    (npts - (npts - a) % npts) % npts = a := by
  rcases Nat.eq_zero_or_pos a with rfl | hpos
  · simp [Nat.mod_self]
  · have h1 : (npts - a) % npts = npts - a := Nat.mod_eq_of_lt (by omega)
    rw [h1]
    have h2 : npts - (npts - a) = a := by omega
    rw [h2]
    exact Nat.mod_eq_of_lt ha

/-- One row of the 2-D DFT sum is invariant under negating the column
frequency when the signal's columns are symmetric under the mod-`npts`
reflection `c ↦ npts - c`. -/
theorem dft_row_reflect (npts u k : ℕ) (M : ℕ → ℕ → ℂ) (r : ℕ)
    (h0 : 0 < npts) (hk : k ≤ npts)
    (hsym : ∀ c, c ≤ npts → M r (npts - c) = M r c) :
    ∑ c ∈ Finset.range npts, M r c * Complex.exp (-2 * (Real.pi : ℂ) *
        Complex.I * ((r : ℂ) * (u : ℂ) + (c : ℂ) * ((npts - k : ℕ) : ℂ)) / npts)
      = ∑ c ∈ Finset.range npts, M r c * Complex.exp (-2 * (Real.pi : ℂ) *
        Complex.I * ((r : ℂ) * (u : ℂ) + (c : ℂ) * (k : ℂ)) / npts) := by
  have hn0 : (npts : ℂ) ≠ 0 := by
    exact_mod_cast Nat.pos_iff_ne_zero.mp h0
  apply Finset.sum_nbij' (fun c => (npts - c) % npts) (fun c => (npts - c) % npts)
  · intro a _
    exact Finset.mem_range.mpr (Nat.mod_lt _ h0)
  · intro a _
    exact Finset.mem_range.mpr (Nat.mod_lt _ h0)
  · intro a ha
    exact reflect_involution npts a (Finset.mem_range.mp ha)
  · intro a ha
    exact reflect_involution npts a (Finset.mem_range.mp ha)
  · intro c hc
    have hc' : c < npts := Finset.mem_range.mp hc
    rcases Nat.eq_zero_or_pos c with rfl | hpos
    · simp [Nat.mod_self]
    · rw [Nat.mod_eq_of_lt (by omega)]
      rw [hsym c hc'.le]
      congr 1
      have hcast1 : ((npts - k : ℕ) : ℂ) = (npts : ℂ) - k := by
        rw [Nat.cast_sub hk]
      have hcast2 : ((npts - c : ℕ) : ℂ) = (npts : ℂ) - c := by
        rw [Nat.cast_sub hc'.le]
      have key : -2 * (Real.pi : ℂ) * Complex.I *
          ((r : ℂ) * (u : ℂ) + (c : ℂ) * ((npts - k : ℕ) : ℂ)) / npts
          = -2 * (Real.pi : ℂ) * Complex.I *
            ((r : ℂ) * (u : ℂ) + ((npts - c : ℕ) : ℂ) * (k : ℂ)) / npts
            + (((k : ℤ) - (c : ℤ) : ℤ) : ℂ) * (2 * (Real.pi : ℂ) * Complex.I) := by
        rw [hcast1, hcast2]
        push_cast
        field_simp
        ring
      rw [key, Complex.exp_add, Complex.exp_int_mul_two_pi_mul_I, mul_one]

/-- The 2-D DFT of a column-symmetric signal is invariant under negating the
column frequency: `F[u][npts-k] = F[u][k]`. -/
theorem fft2_col_reflect (npts : ℕ) (M : ℕ → ℕ → ℂ) (u k : ℕ)
    (h0 : 0 < npts) (hk : k ≤ npts)
    (hsym : ∀ r c, c ≤ npts → M r (npts - c) = M r c) :
    fft2 npts M u (npts - k) = fft2 npts M u k := by
  unfold fft2
  exact Finset.sum_congr rfl fun r _ =>
    dft_row_reflect npts u k M r h0 hk (hsym r)

/-- The centered column coordinate is odd under the reflection
`c ↦ 2·n2 - c`. -/
theorem xv_reflect (lam D : ℝ) (n2 c : ℕ) (hc : c ≤ 2 * n2) :
    xv lam D (2 * n2) (2 * n2 - c) = - xv lam D (2 * n2) c := by
  unfold xv
  have h2 : 2 * n2 / 2 = n2 := by omega
  rw [h2, Nat.cast_sub hc]
  push_cast
  ring

/-- For an even transmission profile the ring aperture is symmetric under
the column reflection `c ↦ 2·n2 - c`. -/
theorem ringSeg_ap_reflect (lam D wid : ℝ) (t : ℝ → ℝ) (n2 r c : ℕ)
    (heven : ∀ x, t x = t (-x)) (hc : c ≤ 2 * n2) :
    RingSeg_ap lam D (2 * n2) wid t r (2 * n2 - c)
      = RingSeg_ap lam D (2 * n2) wid t r c := by
  unfold RingSeg_ap inAp ringGrid
  simp only [one_mul, xv_reflect lam D n2 c hc, abs_neg]
  split
  · exact (heven _).symm
  · rfl

/-- The quadratic phase factor is symmetric under the column reflection
`c ↦ 2·n2 - c`. -/
theorem eTerm_reflect (n2 r c : ℕ) (hc : c ≤ 2 * n2) :
    eTerm (2 * n2) r (2 * n2 - c) = eTerm (2 * n2) r c := by
  unfold eTerm occ_n2
  have h2 : 2 * n2 / 2 = n2 := by omega
  rw [h2]
  congr 1
  rw [Nat.cast_sub hc]
  push_cast
  ring

/-- C5: for an even transmission function, the observer-field row through
the ring midline produced by `RingSeg_ap` followed by `occ_lc` is mirror
symmetric about the center index `n2`: `row[n2+k] = row[n2-k]` for
`0 < k < n2`. -/
theorem ringSeg_occ_row_symmetric (lam D wid : ℝ) (t : ℝ → ℝ) (n2 k : ℕ)
    (heven : ∀ x, t x = t (-x)) (hn2 : 0 < n2) (hk0 : 0 < k) (hk : k < n2) :
    occ_lc (2 * n2) (fun r c => ((RingSeg_ap lam D (2 * n2) wid t r c : ℝ) : ℂ))
        n2 (n2 + k)
      = occ_lc (2 * n2) (fun r c => ((RingSeg_ap lam D (2 * n2) wid t r c : ℝ) : ℂ))
        n2 (n2 - k) := by
  have hrow : rollIdx (2 * n2) (occ_n2 (2 * n2)) n2 = 0 := by
    unfold rollIdx occ_n2
    have h : n2 + (2 * n2 - 2 * n2 / 2) = 2 * n2 := by omega
    rw [h, Nat.mod_self]
  have hcol1 : rollIdx (2 * n2) (occ_n2 (2 * n2)) (n2 + k) = k := by
    unfold rollIdx occ_n2
    have h : n2 + k + (2 * n2 - 2 * n2 / 2) = 2 * n2 + k := by omega
    rw [h, Nat.add_mod_left, Nat.mod_eq_of_lt (by omega)]
  have hcol2 : rollIdx (2 * n2) (occ_n2 (2 * n2)) (n2 - k) = 2 * n2 - k := by
    unfold rollIdx occ_n2
    have h : n2 - k + (2 * n2 - 2 * n2 / 2) = 2 * n2 - k := by omega
    rw [h, Nat.mod_eq_of_lt (by omega)]
  have hsymM : ∀ r c, c ≤ 2 * n2 →
      occ_M (2 * n2) (fun r c => ((RingSeg_ap lam D (2 * n2) wid t r c : ℝ) : ℂ))
          r (2 * n2 - c)
        = occ_M (2 * n2) (fun r c => ((RingSeg_ap lam D (2 * n2) wid t r c : ℝ) : ℂ))
          r c := by
    intro r c hc
    unfold occ_M
    dsimp only
    rw [eTerm_reflect n2 r c hc, ringSeg_ap_reflect lam D wid t n2 r c heven hc]
  have hfft : fft2 (2 * n2)
      (occ_M (2 * n2) (fun r c => ((RingSeg_ap lam D (2 * n2) wid t r c : ℝ) : ℂ)))
      0 (2 * n2 - k)
      = fft2 (2 * n2)
        (occ_M (2 * n2) (fun r c => ((RingSeg_ap lam D (2 * n2) wid t r c : ℝ) : ℂ)))
        0 k :=
    fft2_col_reflect (2 * n2) _ 0 k (by omega) (by omega) hsymM
  unfold occ_lc
  rw [hrow, hcol1, hcol2]
  unfold occ_pObs occ_pObsC occ_E
  rw [hfft]

/-- Witness for C5 at `n2 = 2`, `k = 1`, constant transmission `1`. -/
theorem ringSeg_occ_row_symmetric_witness :
    (∀ x : ℝ, (fun _ : ℝ => (1 : ℝ)) x = (fun _ : ℝ => (1 : ℝ)) (-x)) ∧
    (0 : ℕ) < 2 ∧ (0 : ℕ) < 1 ∧ (1 : ℕ) < 2 ∧
    occ_lc (2 * 2)
        (fun r c => ((RingSeg_ap 1 1 (2 * 2) 1 (fun _ => 1) r c : ℝ) : ℂ)) 2 (2 + 1)
      = occ_lc (2 * 2)
        (fun r c => ((RingSeg_ap 1 1 (2 * 2) 1 (fun _ => 1) r c : ℝ) : ℂ)) 2 (2 - 1) :=
  ⟨fun _ => rfl, by norm_num, by norm_num, by norm_num,
    ringSeg_occ_row_symmetric 1 1 1 (fun _ => 1) 2 1 (fun _ => rfl)
      (by norm_num) (by norm_num) (by norm_num)⟩

/-- Witness for C6 at the constant row `1`. -/
theorem baseline_normalization_idempotent_witness :
    (∀ i : ℕ, i < 100 → (0 : ℝ) < (fun _ : ℕ => (1 : ℝ)) i) ∧
    baseline (normalizeRow (fun _ : ℕ => (1 : ℝ))) = 1 :=
  ⟨fun i _ => by norm_num,
    baseline_normalization_idempotent (fun _ => 1) (fun i _ => by norm_num)⟩

end
